import Mathlib

set_option autoImplicit false

/-!
Verification development for the pure-function-decorators repository.

The Python modules are shallowly embedded:
* `Val` models the Python value graphs handled by
  `detect_immutable._first_diff` (acyclic values; dicts and object
  `__dict__`s are association lists in insertion order).
* `firstDiff`, `compareSequence`, `dictDiff`, `setDiff`, `scalarDiff`
  translate `_first_diff` / `_compare_sequence` / `_describe_collection`.
* `detectImmutable` translates the wrapper of `detect_immutable`; a call of
  the wrapped function is modelled by the values of the arguments after the
  call together with the returned result.
Later sections embed `enforce_deterministic`, `forbid_side_effects`,
`enforce_immutable` and `forbid_global_names`.
-/

namespace PureFn

/-- A diff path: sequence of rendered path segments. -/
abbrev Path := List String

/-- A diff result: path plus human-readable description. -/
abbrev Diff := Path × String

/-- Python value graphs, as handled by `_first_diff`.  Dicts (and object
`__dict__` mappings) are association lists in insertion order; sets keep
their iteration order as a list.  Object values carry their class name and
their `__dict__`. -/
inductive Val where
  | vnone : Val
  | vbool : Bool → Val
  | vint : Int → Val
  | vstr : String → Val
  | vlist : List Val → Val
  | vtuple : List Val → Val
  | vdict : List (Val × Val) → Val
  | vset : List Val → Val
  | vfrozenset : List Val → Val
  | vobj : String → List (Val × Val) → Val
deriving Repr

mutual

/-- Python `==` on embedded values (same-type structural comparison; the
guards only ever compare values of equal runtime type). -/
def beqVal : Val → Val → Bool
  | .vnone, .vnone => true
  | .vbool a, .vbool b => a == b
  | .vint a, .vint b => a == b
  | .vstr a, .vstr b => a == b
  | .vlist a, .vlist b => beqListVal a b
  | .vtuple a, .vtuple b => beqListVal a b
  | .vdict a, .vdict b => beqEntries a b
  | .vset a, .vset b => beqListVal a b
  | .vfrozenset a, .vfrozenset b => beqListVal a b
  | .vobj c1 f1, .vobj c2 f2 => c1 == c2 && beqEntries f1 f2
  | _, _ => false
termination_by a _ => sizeOf a

/-- Element-wise equality of value lists. -/
def beqListVal : List Val → List Val → Bool
  | [], [] => true
  | x :: xs, y :: ys => beqVal x y && beqListVal xs ys
  | _, _ => false
termination_by a _ => sizeOf a

/-- Entry-wise equality of association lists. -/
def beqEntries : List (Val × Val) → List (Val × Val) → Bool
  | [], [] => true
  | (k1, v1) :: xs, (k2, v2) :: ys =>
      beqVal k1 k2 && beqVal v1 v2 && beqEntries xs ys
  | _, _ => false
termination_by a _ => sizeOf a

end

mutual

theorem beqVal_iff : (a b : Val) → (beqVal a b = true ↔ a = b)
  | .vnone, b => by cases b <;> simp [beqVal]
  | .vbool x, b => by cases b <;> simp [beqVal]
  | .vint x, b => by cases b <;> simp [beqVal]
  | .vstr x, b => by cases b <;> simp [beqVal]
  | .vlist xs, b => by
      cases b <;> simp [beqVal]
      exact beqListVal_iff xs _
  | .vtuple xs, b => by
      cases b <;> simp [beqVal]
      exact beqListVal_iff xs _
  | .vdict es, b => by
      cases b <;> simp [beqVal]
      exact beqEntries_iff es _
  | .vset xs, b => by
      cases b <;> simp [beqVal]
      exact beqListVal_iff xs _
  | .vfrozenset xs, b => by
      cases b <;> simp [beqVal]
      exact beqListVal_iff xs _
  | .vobj c fs, b => by
      cases b <;> simp [beqVal]
      intro _
      exact beqEntries_iff fs _
termination_by a _ => sizeOf a

theorem beqListVal_iff : (a b : List Val) → (beqListVal a b = true ↔ a = b)
  | [], b => by cases b <;> simp [beqListVal]
  | x :: xs, b => by
      cases b <;> simp [beqListVal]
      rw [beqVal_iff x _, beqListVal_iff xs _]
termination_by a _ => sizeOf a

theorem beqEntries_iff :
    (a b : List (Val × Val)) → (beqEntries a b = true ↔ a = b)
  | [], b => by cases b <;> simp [beqEntries]
  | (k, v) :: xs, b => by
      cases b with
      | nil => simp [beqEntries]
      | cons hd tl =>
          obtain ⟨k2, v2⟩ := hd
          simp [beqEntries]
          rw [beqVal_iff k _, beqVal_iff v _, beqEntries_iff xs _]
termination_by a _ => sizeOf a

end

instance : DecidableEq Val := fun a b =>
  decidable_of_iff (beqVal a b = true) (beqVal_iff a b)

/-- `type(x).__name__` for the embedded values. -/
def pytype : Val → String
  | .vnone => "NoneType"
  | .vbool _ => "bool"
  | .vint _ => "int"
  | .vstr _ => "str"
  | .vlist _ => "list"
  | .vtuple _ => "tuple"
  | .vdict _ => "dict"
  | .vset _ => "set"
  | .vfrozenset _ => "frozenset"
  | .vobj cls _ => cls

/-- `type(a) is type(b)`: same runtime type.  Distinct classes are
distinct types even when a user class shadows a builtin name, so type
identity is constructor equality plus, for objects, class equality. -/
def sameType : Val → Val → Bool
  | .vnone, .vnone => true
  | .vbool _, .vbool _ => true
  | .vint _, .vint _ => true
  | .vstr _, .vstr _ => true
  | .vlist _, .vlist _ => true
  | .vtuple _, .vtuple _ => true
  | .vdict _, .vdict _ => true
  | .vset _, .vset _ => true
  | .vfrozenset _, .vfrozenset _ => true
  | .vobj c1 _, .vobj c2 _ => c1 == c2
  | _, _ => false

mutual

/-- `repr(x)` (addresses of plain objects abstracted, strings assumed to
need no escaping). -/
def pyRepr : Val → String
  | .vnone => "None"
  | .vbool true => "True"
  | .vbool false => "False"
  | .vint n => toString n
  | .vstr s => "'" ++ s ++ "'"
  | .vlist xs => "[" ++ String.intercalate ", " (pyReprList xs) ++ "]"
  | .vtuple [] => "()"
  | .vtuple [x] => "(" ++ pyRepr x ++ ",)"
  | .vtuple xs => "(" ++ String.intercalate ", " (pyReprList xs) ++ ")"
  | .vdict es => "\x7b" ++ String.intercalate ", " (pyReprEntries es) ++ "\x7d"
  | .vset [] => "set()"
  | .vset xs => "\x7b" ++ String.intercalate ", " (pyReprList xs) ++ "\x7d"
  | .vfrozenset [] => "frozenset()"
  | .vfrozenset xs =>
      "frozenset(\x7b" ++ String.intercalate ", " (pyReprList xs) ++ "\x7d)"
  | .vobj cls _ => "<" ++ cls ++ " object>"
termination_by a => sizeOf a

/-- Renders each element of a list. -/
def pyReprList : List Val → List String
  | [] => []
  | x :: xs => pyRepr x :: pyReprList xs
termination_by a => sizeOf a

/-- Renders each dict entry. -/
def pyReprEntries : List (Val × Val) → List String
  | [] => []
  | (k, v) :: es => (pyRepr k ++ ": " ++ pyRepr v) :: pyReprEntries es
termination_by a => sizeOf a

end

/-- `_describe_collection`: sorted reprs of the items, bracketed. -/
def describeCollection (items : List Val) : String :=
  "[" ++ String.intercalate ", "
    ((items.map pyRepr).mergeSort (fun a b => decide (a ≤ b))) ++ "]"

/-- The 200-character truncation applied to leaf reprs. -/
def truncateRepr (s : String) : String :=
  if s.length > 200 then s.take 197 ++ "..." else s

/-- Keys of an association list, in insertion order. -/
def keysOf (es : List (Val × Val)) : List Val := es.map Prod.fst

/-- Dict lookup (`d[k]`), as an option. -/
def lookupV : List (Val × Val) → Val → Option Val
  | [], _ => none
  | (k2, v) :: rest, k => if beqVal k2 k then some v else lookupV rest k

/-- Membership in a list under Python `==` (`x in xs`). -/
def memV (x : Val) (xs : List Val) : Bool :=
  xs.any (fun y => beqVal y x)

/-- Set equality of two key lists (`set(a) == set(b)`). -/
def sameSet (xs ys : List Val) : Bool :=
  xs.all (fun x => memV x ys) && ys.all (fun y => memV y xs)

/-- `a_keys - b_keys`: keys of the first dict absent from the second. -/
def missingKeys (da db : List (Val × Val)) : List Val :=
  (keysOf da).filter (fun k => !(memV k (keysOf db)))

/-- `b_keys - a_keys`: keys of the second dict absent from the first. -/
def addedKeys (da db : List (Val × Val)) : List Val :=
  (keysOf db).filter (fun k => !(memV k (keysOf da)))

/-- Leaf comparison of `_first_diff`: values of equal type compared by
equality, reprs reported truncated. -/
def scalarDiff (a b : Val) (path : Path) : Option Diff :=
  if beqVal a b = false then
    some (path,
      "value " ++ truncateRepr (pyRepr a) ++ " -> " ++ truncateRepr (pyRepr b))
  else none

/-- Set comparison of `_first_diff`: whole-set comparison, removed and
added elements reported, no descent. -/
def setDiff (sa sb : List Val) (path : Path) : Option Diff :=
  if sameSet sa sb = false then
    some (path,
      "set changed; -" ++ describeCollection (sa.filter (fun x => !(memV x sb)))
        ++ " +" ++ describeCollection (sb.filter (fun x => !(memV x sa))))
  else none

mutual

/-- `_first_diff(a, b, path)`: first structural difference between two
value graphs, or `none`. -/
def firstDiff (a b : Val) (path : Path) : Option Diff :=
  if sameType a b = false then
    some (path, "type " ++ pytype a ++ " -> " ++ pytype b)
  else
    match a, b with
    | .vdict da, .vdict db => dictDiff da db path
    | .vlist la, .vlist lb => compareSequence la lb path
    | .vtuple la, .vtuple lb => compareSequence la lb path
    | .vset sa, .vset sb => setDiff sa sb path
    | .vfrozenset sa, .vfrozenset sb => setDiff sa sb path
    | .vobj _ fa, .vobj _ fb => dictDiff fa fb (path ++ [".__dict__"])
    | x, y => scalarDiff x y path
termination_by (sizeOf a, 2)

/-- Dict branch of `_first_diff`: key sets first (missing keys, then
added keys), then values in the first dict's key order. -/
def dictDiff (da db : List (Val × Val)) (path : Path) : Option Diff :=
  if sameSet (keysOf da) (keysOf db) = false ∧ missingKeys da db ≠ [] then
    some (path ++ ["<dict-keys>"],
      "missing keys " ++ describeCollection (missingKeys da db))
  else if sameSet (keysOf da) (keysOf db) = false ∧ addedKeys da db ≠ [] then
    some (path ++ ["<dict-keys>"],
      "added keys " ++ describeCollection (addedKeys da db))
  else dictEntriesDiff da db path
termination_by (sizeOf da, 1)

/-- The value loop of the dict branch: iterate the first dict in
insertion order, compare against the second dict's value for that key.
Only entered with equal key sets, so the lookup never misses. -/
def dictEntriesDiff (da db : List (Val × Val)) (path : Path) : Option Diff :=
  match da with
  | [] => none
  | (k, v) :: rest =>
    match lookupV db k with
    | none => none
    | some w =>
      match firstDiff v w (path ++ ["[" ++ pyRepr k ++ "]"]) with
      | some d => some d
      | none => dictEntriesDiff rest db path
termination_by (sizeOf da, 0)

/-- `_compare_sequence`: length first (with the sentinel segment), then
index-by-index. -/
def compareSequence (la lb : List Val) (path : Path) : Option Diff :=
  if la.length ≠ lb.length then
    some (path ++ ["<len>"], toString la.length ++ " -> " ++ toString lb.length)
  else seqZipDiff la lb path 0
termination_by (sizeOf la, 1)

/-- The element loop of `_compare_sequence`. -/
def seqZipDiff (la lb : List Val) (path : Path) (i : Nat) : Option Diff :=
  match la, lb with
  | [], _ => none
  | _ :: _, [] => none
  | x :: xs, y :: ys =>
    match firstDiff x y (path ++ ["[" ++ toString i ++ "]"]) with
    | some d => some d
    | none => seqZipDiff xs ys path (i + 1)
termination_by (sizeOf la, 0)

end

/-- The leaf shapes (compared by the final equality rule of
`_first_diff`). -/
def Val.isScalar : Val → Bool
  | .vnone => true
  | .vbool _ => true
  | .vint _ => true
  | .vstr _ => true
  | _ => false

theorem beqVal_refl (a : Val) : beqVal a a = true := (beqVal_iff a a).mpr rfl

theorem memV_iff (x : Val) (xs : List Val) : memV x xs = true ↔ x ∈ xs := by
  simp only [memV, List.any_eq_true]
  constructor
  · rintro ⟨y, hy, hbeq⟩
    rw [beqVal_iff] at hbeq
    exact hbeq ▸ hy
  · intro hx
    exact ⟨x, hx, beqVal_refl x⟩

theorem sameSet_refl (xs : List Val) : sameSet xs xs = true := by
  simp only [sameSet, Bool.and_eq_true, List.all_eq_true]
  exact ⟨fun x hx => (memV_iff x xs).mpr hx, fun x hx => (memV_iff x xs).mpr hx⟩

/-- Unfolding lemma: the type-mismatch rule fires first, at the current
path, independent of the contents of either value. -/
theorem firstDiff_type_mismatch (a b : Val) (p : Path)
    (h : sameType a b = false) :
    firstDiff a b p = some (p, "type " ++ pytype a ++ " -> " ++ pytype b) := by
  rw [firstDiff.eq_def, if_pos h]

theorem firstDiff_vdict (da db : List (Val × Val)) (p : Path) :
    firstDiff (.vdict da) (.vdict db) p = dictDiff da db p := by
  rw [firstDiff.eq_def]
  simp [sameType]

theorem firstDiff_vlist (la lb : List Val) (p : Path) :
    firstDiff (.vlist la) (.vlist lb) p = compareSequence la lb p := by
  rw [firstDiff.eq_def]
  simp [sameType]

theorem firstDiff_vtuple (la lb : List Val) (p : Path) :
    firstDiff (.vtuple la) (.vtuple lb) p = compareSequence la lb p := by
  rw [firstDiff.eq_def]
  simp [sameType]

theorem firstDiff_vset (sa sb : List Val) (p : Path) :
    firstDiff (.vset sa) (.vset sb) p = setDiff sa sb p := by
  rw [firstDiff.eq_def]
  simp [sameType]

theorem firstDiff_vfrozenset (sa sb : List Val) (p : Path) :
    firstDiff (.vfrozenset sa) (.vfrozenset sb) p = setDiff sa sb p := by
  rw [firstDiff.eq_def]
  simp [sameType]

theorem firstDiff_vobj (c : String) (fa fb : List (Val × Val)) (p : Path) :
    firstDiff (.vobj c fa) (.vobj c fb) p =
      dictDiff fa fb (p ++ [".__dict__"]) := by
  rw [firstDiff.eq_def]
  simp [sameType]

theorem firstDiff_scalar (a b : Val) (p : Path)
    (hty : sameType a b = true)
    (hsc : (a.isScalar : Bool) = true) :
    firstDiff a b p = scalarDiff a b p := by
  cases a <;> cases b <;>
    simp only [sameType, Val.isScalar, Bool.false_eq_true] at hty hsc <;>
    (rw [firstDiff.eq_def]; simp [sameType])

/-- Pairwise distinct keys under Python equality. -/
def nodupKeys : List Val → Bool
  | [] => true
  | k :: ks => !(memV k ks) && nodupKeys ks

mutual

/-- Well-formed value graphs: every dict and every object field table
has pairwise distinct keys, as Python dicts have by construction. -/
def wfVal : Val → Bool
  | .vnone => true
  | .vbool _ => true
  | .vint _ => true
  | .vstr _ => true
  | .vlist xs => wfList xs
  | .vtuple xs => wfList xs
  | .vset xs => wfList xs
  | .vfrozenset xs => wfList xs
  | .vdict es => nodupKeys (keysOf es) && wfEntries es
  | .vobj _ es => nodupKeys (keysOf es) && wfEntries es
termination_by a => sizeOf a

/-- All elements well-formed. -/
def wfList : List Val → Bool
  | [] => true
  | x :: xs => wfVal x && wfList xs
termination_by a => sizeOf a

/-- All keys and values well-formed. -/
def wfEntries : List (Val × Val) → Bool
  | [] => true
  | (k, v) :: es => wfVal k && wfVal v && wfEntries es
termination_by a => sizeOf a

end

theorem lookupV_nodup (es : List (Val × Val)) (k : Val) (v : Val)
    (hnd : nodupKeys (keysOf es) = true) (hm : (k, v) ∈ es) :
    lookupV es k = some v := by
  induction es with
  | nil => cases hm
  | cons hd rest ih =>
      obtain ⟨k2, v2⟩ := hd
      simp only [keysOf, List.map_cons, nodupKeys, Bool.and_eq_true,
        Bool.not_eq_true'] at hnd
      rcases List.mem_cons.mp hm with heq | hrest
      · obtain ⟨rfl, rfl⟩ := Prod.mk.injEq .. ▸ heq
        simp [lookupV, beqVal_refl]
      · have hne : beqVal k2 k = false := by
          rcases hbeq : beqVal k2 k with _ | _
          · rfl
          · exfalso
            have : k2 = k := (beqVal_iff k2 k).mp hbeq
            subst this
            have hm2 : k2 ∈ keysOf rest := by
              simpa [keysOf] using List.mem_map_of_mem Prod.fst hrest
            have hmem := (memV_iff k2 (keysOf rest)).mpr hm2
            simp only [keysOf] at hmem
            rw [hmem] at hnd
            exact absurd hnd.1 (by simp)
        simp only [lookupV, hne, Bool.false_eq_true, if_false]
        exact ih hnd.2 hrest

theorem setDiff_none_iff (sa sb : List Val) (p : Path) :
    setDiff sa sb p = none ↔ sameSet sa sb = true := by
  unfold setDiff
  rcases h : sameSet sa sb with _ | _ <;> simp

theorem scalarDiff_none_iff (a b : Val) (p : Path) :
    scalarDiff a b p = none ↔ beqVal a b = true := by
  unfold scalarDiff
  rcases h : beqVal a b with _ | _ <;> simp

theorem setDiff_refl (xs : List Val) (p : Path) : setDiff xs xs p = none :=
  (setDiff_none_iff xs xs p).mpr (sameSet_refl xs)

theorem scalarDiff_refl (a : Val) (p : Path) : scalarDiff a a p = none :=
  (scalarDiff_none_iff a a p).mpr (beqVal_refl a)

/-- The dict branch on equal key sets skips the key-set diffs and runs
the value loop. -/
theorem dictDiff_sameSet (da db : List (Val × Val)) (p : Path)
    (h : sameSet (keysOf da) (keysOf db) = true) :
    dictDiff da db p = dictEntriesDiff da db p := by
  rw [dictDiff.eq_def]
  simp [h]

mutual

theorem firstDiff_refl : (a : Val) → wfVal a = true → ∀ p, firstDiff a a p = none
  | .vnone, _, p => by rw [firstDiff_scalar] <;> simp [scalarDiff_refl, sameType, Val.isScalar]
  | .vbool x, _, p => by rw [firstDiff_scalar] <;> simp [scalarDiff_refl, sameType, Val.isScalar]
  | .vint x, _, p => by rw [firstDiff_scalar] <;> simp [scalarDiff_refl, sameType, Val.isScalar]
  | .vstr x, _, p => by rw [firstDiff_scalar] <;> simp [scalarDiff_refl, sameType, Val.isScalar]
  | .vlist xs, h, p => by
      rw [firstDiff_vlist]
      unfold compareSequence
      simp only [ne_eq, not_true_eq_false, if_neg, if_false]
      exact seqZipDiff_refl xs (by simpa [wfVal] using h) p 0
  | .vtuple xs, h, p => by
      rw [firstDiff_vtuple]
      unfold compareSequence
      simp only [ne_eq, not_true_eq_false, if_neg, if_false]
      exact seqZipDiff_refl xs (by simpa [wfVal] using h) p 0
  | .vset xs, _, p => by rw [firstDiff_vset]; exact setDiff_refl xs p
  | .vfrozenset xs, _, p => by rw [firstDiff_vfrozenset]; exact setDiff_refl xs p
  | .vdict es, h, p => by
      rw [firstDiff_vdict, dictDiff_sameSet _ _ _ (sameSet_refl _)]
      simp only [wfVal, Bool.and_eq_true] at h
      exact dictEntriesDiff_refl es es h.2
        (fun kv hm => lookupV_nodup es kv.1 kv.2 h.1 hm) p
  | .vobj c es, h, p => by
      rw [firstDiff_vobj, dictDiff_sameSet _ _ _ (sameSet_refl _)]
      simp only [wfVal, Bool.and_eq_true] at h
      exact dictEntriesDiff_refl es es h.2
        (fun kv hm => lookupV_nodup es kv.1 kv.2 h.1 hm) _
termination_by a => (sizeOf a, 2)

theorem seqZipDiff_refl : (xs : List Val) → wfList xs = true → ∀ p i,
    seqZipDiff xs xs p i = none
  | [], _, p, i => by rw [seqZipDiff.eq_def]
  | x :: xs, h, p, i => by
      simp only [wfList, Bool.and_eq_true] at h
      rw [seqZipDiff.eq_def]
      simp only [firstDiff_refl x h.1]
      exact seqZipDiff_refl xs h.2 p (i + 1)
termination_by xs => (sizeOf xs, 0)

theorem dictEntriesDiff_refl : (da : List (Val × Val)) →
    (db : List (Val × Val)) → wfEntries da = true →
    (∀ kv ∈ da, lookupV db kv.1 = some kv.2) → ∀ p,
    dictEntriesDiff da db p = none
  | [], db, _, _, p => by rw [dictEntriesDiff.eq_def]
  | (k, v) :: rest, db, h, hlook, p => by
      simp only [wfEntries, Bool.and_eq_true] at h
      rw [dictEntriesDiff.eq_def]
      have hkv : lookupV db k = some v := hlook (k, v) (List.mem_cons_self _ _)
      simp only [hkv, firstDiff_refl v h.1.2]
      exact dictEntriesDiff_refl rest db h.2
        (fun kv hm => hlook kv (List.mem_cons_of_mem _ hm)) p
termination_by da => (sizeOf da, 0)

end

mutual

/-- Whether `_first_diff` reports a difference does not depend on the
path prefix it is handed (the path only decorates the report). -/
theorem firstDiff_none_path : (a b : Val) → (p q : Path) →
    (firstDiff a b p = none ↔ firstDiff a b q = none)
  | a, b, p, q => by
    rcases hty : sameType a b with _ | _
    · simp [firstDiff_type_mismatch a b p hty, firstDiff_type_mismatch a b q hty]
    · cases a <;> cases b <;>
        simp only [sameType, Bool.false_eq_true] at hty
      case vnone.vnone =>
        rw [firstDiff_scalar Val.vnone Val.vnone p rfl rfl,
          firstDiff_scalar Val.vnone Val.vnone q rfl rfl]
        simp [scalarDiff_none_iff]
      case vbool.vbool x y =>
        rw [firstDiff_scalar (Val.vbool x) (Val.vbool y) p rfl rfl,
          firstDiff_scalar (Val.vbool x) (Val.vbool y) q rfl rfl]
        simp [scalarDiff_none_iff]
      case vint.vint x y =>
        rw [firstDiff_scalar (Val.vint x) (Val.vint y) p rfl rfl,
          firstDiff_scalar (Val.vint x) (Val.vint y) q rfl rfl]
        simp [scalarDiff_none_iff]
      case vstr.vstr x y =>
        rw [firstDiff_scalar (Val.vstr x) (Val.vstr y) p rfl rfl,
          firstDiff_scalar (Val.vstr x) (Val.vstr y) q rfl rfl]
        simp [scalarDiff_none_iff]
      case vlist.vlist la lb =>
        rw [firstDiff_vlist, firstDiff_vlist]
        exact compareSequence_none_path la lb p q
      case vtuple.vtuple la lb =>
        rw [firstDiff_vtuple, firstDiff_vtuple]
        exact compareSequence_none_path la lb p q
      case vdict.vdict da db =>
        rw [firstDiff_vdict, firstDiff_vdict]
        exact dictDiff_none_path da db p q
      case vset.vset sa sb =>
        rw [firstDiff_vset, firstDiff_vset]
        simp [setDiff_none_iff]
      case vfrozenset.vfrozenset sa sb =>
        rw [firstDiff_vfrozenset, firstDiff_vfrozenset]
        simp [setDiff_none_iff]
      case vobj.vobj c1 f1 c2 f2 =>
        obtain rfl : c1 = c2 := by simpa using hty
        rw [firstDiff_vobj, firstDiff_vobj]
        exact dictDiff_none_path f1 f2 (p ++ [".__dict__"]) (q ++ [".__dict__"])
termination_by a _ _ _ => (sizeOf a, 2)

theorem dictDiff_none_path : (da db : List (Val × Val)) → (p q : Path) →
    (dictDiff da db p = none ↔ dictDiff da db q = none)
  | da, db, p, q => by
    rw [dictDiff.eq_def da db p, dictDiff.eq_def da db q]
    by_cases h1 :
        sameSet (keysOf da) (keysOf db) = false ∧ missingKeys da db ≠ []
    · simp [h1]
    · simp only [if_neg h1]
      by_cases h2 :
          sameSet (keysOf da) (keysOf db) = false ∧ addedKeys da db ≠ []
      · simp [h2]
      · simp only [if_neg h2]
        exact dictEntriesDiff_none_path da db p q
termination_by da _ _ _ => (sizeOf da, 1)

theorem dictEntriesDiff_none_path : (da db : List (Val × Val)) → (p q : Path) →
    (dictEntriesDiff da db p = none ↔ dictEntriesDiff da db q = none)
  | [], db, p, q => by
      rw [dictEntriesDiff.eq_def [] db p, dictEntriesDiff.eq_def [] db q]
  | (k, v) :: rest, db, p, q => by
      rw [dictEntriesDiff.eq_def ((k, v) :: rest) db p,
        dictEntriesDiff.eq_def ((k, v) :: rest) db q]
      rcases hl : lookupV db k with _ | w
      · simp [hl]
      · simp only [hl]
        have hiff := firstDiff_none_path v w
          (p ++ ["[" ++ pyRepr k ++ "]"]) (q ++ ["[" ++ pyRepr k ++ "]"])
        rcases h1 : firstDiff v w (p ++ ["[" ++ pyRepr k ++ "]"]) with _ | d <;>
          rcases h2 : firstDiff v w (q ++ ["[" ++ pyRepr k ++ "]"]) with _ | d2
        · simp only [h1, h2] at *
          exact dictEntriesDiff_none_path rest db p q
        · rw [hiff] at h1
          exact absurd h1 (by simp [h2])
        · rw [← hiff] at h2
          exact absurd h2 (by simp [h1])
        · simp [h1, h2]
termination_by da _ _ _ => (sizeOf da, 0)

theorem compareSequence_none_path : (la lb : List Val) → (p q : Path) →
    (compareSequence la lb p = none ↔ compareSequence la lb q = none)
  | la, lb, p, q => by
    rw [compareSequence.eq_def la lb p, compareSequence.eq_def la lb q]
    by_cases h : la.length ≠ lb.length
    · simp [h]
    · simp only [if_neg h]
      exact seqZipDiff_none_path la lb p q 0 0
termination_by la _ _ _ => (sizeOf la, 1)

theorem seqZipDiff_none_path : (la lb : List Val) → (p q : Path) →
    (i j : Nat) → (seqZipDiff la lb p i = none ↔ seqZipDiff la lb q j = none)
  | [], lb, p, q, i, j => by
      rw [seqZipDiff.eq_def [] lb p i, seqZipDiff.eq_def [] lb q j]
  | x :: xs, [], p, q, i, j => by
      rw [seqZipDiff.eq_def (x :: xs) [] p i, seqZipDiff.eq_def (x :: xs) [] q j]
  | x :: xs, y :: ys, p, q, i, j => by
      rw [seqZipDiff.eq_def (x :: xs) (y :: ys) p i,
        seqZipDiff.eq_def (x :: xs) (y :: ys) q j]
      have hiff := firstDiff_none_path x y
        (p ++ ["[" ++ toString i ++ "]"]) (q ++ ["[" ++ toString j ++ "]"])
      rcases h1 : firstDiff x y (p ++ ["[" ++ toString i ++ "]"]) with _ | d <;>
        rcases h2 : firstDiff x y (q ++ ["[" ++ toString j ++ "]"]) with _ | d2
      · simp only [h1, h2]
        exact seqZipDiff_none_path xs ys p q (i + 1) (j + 1)
      · rw [hiff] at h1
        exact absurd h1 (by simp [h2])
      · rw [← hiff] at h2
        exact absurd h2 (by simp [h1])
      · simp [h1, h2]
termination_by la _ _ _ _ _ => (sizeOf la, 0)

end

/-! ### The `detect_immutable` wrapper -/

/-- One call of the wrapped function, observed at the wrapper: the
returned result together with the values the positional and keyword
arguments hold after the call (an impure callable mutates them in
place; the spine of the argument tuple and the key set of the kwargs
dict cannot be changed by the callee). -/
structure CallBehavior where
  result : Val
  postArgs : List Val
  postKwargs : List (String × Val)

/-- Keyword lookup (`kwargs_snapshot[key]`), as an option. -/
def lookupS : List (String × Val) → String → Option Val
  | [], _ => none
  | (k2, v) :: rest, k => if k2 == k then some v else lookupS rest k

/-- `"/".join(diff_path)`. -/
def renderPath (p : Path) : String := String.intercalate "/" p

/-- The positional loop of `detect_immutable.wrapper`: each post-call
argument against its snapshot, in index order, starting path
`(f"arg[{index}]",)`. -/
def checkArgsLoop : List Val → List Val → Nat → Option Diff
  | [], _, _ => none
  | _ :: _, [], _ => none
  | post :: posts, snap :: snaps, i =>
    match firstDiff post snap ["arg[" ++ toString i ++ "]"] with
    | some d => some d
    | none => checkArgsLoop posts snaps (i + 1)

/-- The keyword loop of `detect_immutable.wrapper`: iterate the kwargs
dict in insertion order, compare against the snapshot for that key,
starting path `(f"kwarg[{key!r}]",)`. -/
def checkKwargsLoop : List (String × Val) → List (String × Val) → Option Diff
  | [], _ => none
  | (k, post) :: rest, snaps =>
    match lookupS snaps k with
    | none => none
    | some snap =>
      match firstDiff post snap ["kwarg['" ++ k ++ "']"] with
      | some d => some d
      | none => checkKwargsLoop rest snaps

/-- `detect_immutable(fn)` at one call: snapshot the arguments (in the
pure value model the deep copy is the pre-call value itself), invoke
`fn` on the originals, then diff each post-call argument against its
snapshot — positionals in index order first, then keywords — raising
`RuntimeError` on the first difference, else returning the result. -/
def detectImmutable (f : List Val → List (String × Val) → CallBehavior)
    (args : List Val) (kwargs : List (String × Val)) : Except String Val :=
  let argsSnapshot := args
  let kwargsSnapshot := kwargs
  let call := f args kwargs
  match checkArgsLoop call.postArgs argsSnapshot 0 with
  | some (dp, msg) =>
      .error ("Argument mutated at " ++ renderPath dp ++ ": " ++ msg)
  | none =>
    match checkKwargsLoop call.postKwargs kwargsSnapshot with
    | some (dp, msg) =>
        .error ("Argument mutated at " ++ renderPath dp ++ ": " ++ msg)
    | none => .ok call.result

/-- Specification-side predicate: some positional argument structurally
differs after the call from its pre-call value. -/
def argsDiffer (postArgs preArgs : List Val) : Prop :=
  ∃ pr ∈ postArgs.zip preArgs, firstDiff pr.1 pr.2 [] ≠ none

/-- Specification-side predicate: some keyword argument structurally
differs after the call from its pre-call value. -/
def kwargsDiffer (postKwargs preKwargs : List (String × Val)) : Prop :=
  ∃ pr ∈ postKwargs.zip preKwargs, firstDiff pr.1.2 pr.2.2 [] ≠ none

theorem checkArgsLoop_none_iff : ∀ (posts snaps : List Val) (i : Nat),
    posts.length = snaps.length →
    (checkArgsLoop posts snaps i = none ↔
      ∀ pr ∈ posts.zip snaps, firstDiff pr.1 pr.2 [] = none)
  | [], snaps, i, _ => by simp [checkArgsLoop]
  | post :: posts, [], i, h => by simp at h
  | post :: posts, snap :: snaps, i, h => by
      have hlen : posts.length = snaps.length := by simpa using h
      rcases hfd : firstDiff post snap ["arg[" ++ toString i ++ "]"] with _ | d
      · have h0 : firstDiff post snap [] = none :=
          (firstDiff_none_path post snap _ []).mp hfd
        simp only [checkArgsLoop, hfd, List.zip_cons_cons, List.mem_cons]
        rw [checkArgsLoop_none_iff posts snaps (i + 1) hlen]
        constructor
        · rintro hall pr (rfl | hm)
          · exact h0
          · exact hall pr hm
        · intro hall pr hm
          exact hall pr (Or.inr hm)
      · have h0 : firstDiff post snap [] ≠ none := by
          intro hc
          rw [firstDiff_none_path post snap [] _] at hc
          rw [hfd] at hc
          cases hc
        simp only [checkArgsLoop, hfd]
        constructor
        · intro hc; cases hc
        · intro hall
          exact absurd (hall (post, snap) (by simp)) h0

theorem lookupS_nodup : ∀ (kw : List (String × Val)) (k : String) (v : Val),
    (kw.map Prod.fst).Nodup → (k, v) ∈ kw → lookupS kw k = some v
  | [], k, v, _, hm => by cases hm
  | (k2, v2) :: rest, k, v, hnd, hm => by
      simp only [List.map_cons, List.nodup_cons] at hnd
      rcases List.mem_cons.mp hm with heq | hrest
      · obtain ⟨rfl, rfl⟩ := Prod.mk.injEq .. ▸ heq
        simp [lookupS]
      · have hne : (k2 == k) = false := by
          rcases hbeq : k2 == k with _ | _
          · rfl
          · exfalso
            have : k2 = k := by simpa using hbeq
            subst this
            exact hnd.1 (by simpa using List.mem_map_of_mem Prod.fst hrest)
        simp only [lookupS, hne, Bool.false_eq_true, if_false]
        exact lookupS_nodup rest k v hnd.2 hrest

/-- Pointwise key agreement extracted from equal key lists. -/
theorem zip_keys_eq : ∀ (post kw : List (String × Val)),
    post.map Prod.fst = kw.map Prod.fst →
    ∀ pr ∈ post.zip kw, pr.1.1 = pr.2.1
  | [], kw, _, pr, hm => by cases hm
  | (k, v) :: rest, [], h, pr, hm => by cases hm
  | (k, v) :: rest, (k2, v2) :: kwrest, h, pr, hm => by
      simp only [List.map_cons, List.cons.injEq] at h
      rcases List.mem_cons.mp hm with rfl | hm2
      · exact h.1
      · exact zip_keys_eq rest kwrest h.2 pr hm2

theorem checkKwargsLoop_none_iff :
    ∀ (post kw snaps : List (String × Val)),
    post.map Prod.fst = kw.map Prod.fst →
    (∀ pr ∈ post.zip kw, lookupS snaps pr.1.1 = some pr.2.2) →
    (checkKwargsLoop post snaps = none ↔
      ∀ pr ∈ post.zip kw, firstDiff pr.1.2 pr.2.2 [] = none)
  | [], kw, snaps, _, _ => by simp [checkKwargsLoop]
  | (k, v) :: rest, [], snaps, hkeys, _ => by simp at hkeys
  | (k, v) :: rest, (k2, v2) :: kwrest, snaps, hkeys, hlook => by
      simp only [List.map_cons, List.cons.injEq] at hkeys
      obtain ⟨rfl, hkeys2⟩ := hkeys
      have hl : lookupS snaps k = some v2 :=
        hlook ((k, v), (k, v2)) (by simp)
      rcases hfd : firstDiff v v2 ["kwarg['" ++ k ++ "']"] with _ | d
      · have h0 : firstDiff v v2 [] = none :=
          (firstDiff_none_path v v2 _ []).mp hfd
        simp only [checkKwargsLoop, hl, hfd, List.zip_cons_cons, List.mem_cons]
        rw [checkKwargsLoop_none_iff rest kwrest snaps hkeys2
          (fun pr hm => hlook pr (List.mem_cons_of_mem _ hm))]
        constructor
        · rintro hall pr (rfl | hm)
          · exact h0
          · exact hall pr hm
        · intro hall pr hm
          exact hall pr (Or.inr hm)
      · have h0 : firstDiff v v2 [] ≠ none := by
          intro hc
          rw [firstDiff_none_path v v2 [] _] at hc
          rw [hfd] at hc
          cases hc
        simp only [checkKwargsLoop, hl, hfd]
        constructor
        · intro hc; cases hc
        · intro hall
          exact absurd (hall ((k, v), (k, v2)) (by simp)) h0

theorem mem_zip_self {α : Type} : ∀ (l : List α) (pr : α × α),
    pr ∈ l.zip l → pr.1 = pr.2
  | [], pr, hm => by cases hm
  | a :: l, pr, hm => by
      rcases List.mem_cons.mp hm with rfl | hm2
      · rfl
      · exact mem_zip_self l pr hm2

theorem wfList_mem : ∀ (l : List Val), wfList l = true →
    ∀ x ∈ l, wfVal x = true
  | [], _, x, hm => by cases hm
  | a :: l, h, x, hm => by
      rw [wfList] at h
      simp only [Bool.and_eq_true] at h
      rcases List.mem_cons.mp hm with rfl | hm2
      · exact h.1
      · exact wfList_mem l h.2 x hm2

/-- C1: the wrapper of `detect_immutable` invokes `f` on the original
arguments and raises the mutation error exactly when some positional or
keyword argument structurally differs, after the call, from its
pre-call snapshot; with no difference it returns the call's result
unchanged, and in particular a call that leaves every argument intact
(a function that only reads its arguments) always returns the result,
whatever that result is. -/
theorem detect_immutable_raises_iff_mutation
    (f : List Val → List (String × Val) → CallBehavior)
    (args : List Val) (kwargs : List (String × Val))
    (hlen : (f args kwargs).postArgs.length = args.length)
    (hkeys : (f args kwargs).postKwargs.map Prod.fst = kwargs.map Prod.fst)
    (hnodup : (kwargs.map Prod.fst).Nodup) :
    ((∃ e, detectImmutable f args kwargs = Except.error e) ↔
      (argsDiffer (f args kwargs).postArgs args ∨
        kwargsDiffer (f args kwargs).postKwargs kwargs)) ∧
    ((¬ argsDiffer (f args kwargs).postArgs args ∧
        ¬ kwargsDiffer (f args kwargs).postKwargs kwargs) →
      detectImmutable f args kwargs = Except.ok (f args kwargs).result) ∧
    (((f args kwargs).postArgs = args ∧ (f args kwargs).postKwargs = kwargs ∧
        wfList args = true ∧ wfList (kwargs.map Prod.snd) = true) →
      detectImmutable f args kwargs = Except.ok (f args kwargs).result) := by
  have hlookup : ∀ pr ∈ ((f args kwargs).postKwargs).zip kwargs,
      lookupS kwargs pr.1.1 = some pr.2.2 := by
    intro pr hm
    obtain ⟨x, y⟩ := pr
    have hk := zip_keys_eq _ _ hkeys (x, y) hm
    have hmem : y ∈ kwargs := (List.of_mem_zip hm).2
    simp only at hk
    rw [hk]
    exact lookupS_nodup kwargs y.1 y.2 hnodup (by simpa using hmem)
  have hAiff : checkArgsLoop (f args kwargs).postArgs args 0 = none ↔
      ¬ argsDiffer (f args kwargs).postArgs args := by
    rw [checkArgsLoop_none_iff _ _ _ hlen]
    simp [argsDiffer]
  have hKiff : checkKwargsLoop (f args kwargs).postKwargs kwargs = none ↔
      ¬ kwargsDiffer (f args kwargs).postKwargs kwargs := by
    rw [checkKwargsLoop_none_iff _ kwargs kwargs hkeys hlookup]
    simp [kwargsDiffer]
  have hident : ((f args kwargs).postArgs = args ∧
      (f args kwargs).postKwargs = kwargs ∧ wfList args = true ∧
      wfList (kwargs.map Prod.snd) = true) →
      ¬ argsDiffer (f args kwargs).postArgs args ∧
      ¬ kwargsDiffer (f args kwargs).postKwargs kwargs := by
    rintro ⟨hpa, hpk, hw, hwk⟩
    constructor
    · rw [hpa]
      rintro ⟨pr, hm, hne⟩
      have heq := mem_zip_self args pr hm
      obtain ⟨x, y⟩ := pr
      simp only at heq
      subst heq
      have hmem : x ∈ args := (List.of_mem_zip hm).1
      exact hne (firstDiff_refl x (wfList_mem args hw x hmem) [])
    · rw [hpk]
      rintro ⟨pr, hm, hne⟩
      have heq := mem_zip_self kwargs pr hm
      obtain ⟨x, y⟩ := pr
      simp only at heq
      subst heq
      have hmem : x ∈ kwargs := (List.of_mem_zip hm).1
      have hwv : wfVal x.2 = true :=
        wfList_mem _ hwk x.2 (List.mem_map_of_mem Prod.snd hmem)
      exact hne (firstDiff_refl x.2 hwv [])
  rcases hargs : checkArgsLoop (f args kwargs).postArgs args 0 with _ | d
  · rcases hkw : checkKwargsLoop (f args kwargs).postKwargs kwargs with _ | d2
    · have hok : detectImmutable f args kwargs =
          Except.ok (f args kwargs).result := by
        simp only [detectImmutable, hargs, hkw]
      refine ⟨?_, fun _ => hok, fun _ => hok⟩
      constructor
      · rintro ⟨e, he⟩
        rw [hok] at he
        cases he
      · rintro (h | h)
        · exact absurd h (hAiff.mp hargs)
        · exact absurd h (hKiff.mp hkw)
    · obtain ⟨dp, msg⟩ := d2
      have herr : detectImmutable f args kwargs =
          Except.error ("Argument mutated at " ++ renderPath dp ++ ": " ++ msg) := by
        simp only [detectImmutable, hargs, hkw]
      have hkd : kwargsDiffer (f args kwargs).postKwargs kwargs := by
        by_contra hn
        rw [← hKiff] at hn
        rw [hkw] at hn
        cases hn
      refine ⟨⟨fun _ => Or.inr hkd, fun _ => ⟨_, herr⟩⟩, ?_, ?_⟩
      · intro hno
        exact absurd hkd hno.2
      · intro hpre
        exact absurd hkd (hident hpre).2
  · obtain ⟨dp, msg⟩ := d
    have herr : detectImmutable f args kwargs =
        Except.error ("Argument mutated at " ++ renderPath dp ++ ": " ++ msg) := by
      simp only [detectImmutable, hargs]
    have had : argsDiffer (f args kwargs).postArgs args := by
      by_contra hn
      rw [← hAiff] at hn
      rw [hargs] at hn
      cases hn
    refine ⟨⟨fun _ => Or.inl had, fun _ => ⟨_, herr⟩⟩, ?_, ?_⟩
    · intro hno
      exact absurd had hno.1
    · intro hpre
      exact absurd had (hident hpre).1

/-- `copy.deepcopy` on an acyclic value graph: the snapshot is a
structurally identical graph (object identity, which the copy refreshes,
is outside this pure value model). -/
def snapshot (v : Val) : Val := v

/-- C2: for every cycle-free well-formed value graph `v`, diffing the
deep-copy snapshot against the original finds no difference — the
snapshot is structurally faithful. -/
theorem snapshot_structurally_faithful (v : Val) (h : wfVal v = true) :
    firstDiff (snapshot v) v [] = none :=
  firstDiff_refl v h []

/-- Witness for C2 at a concrete nested value. -/
theorem snapshot_structurally_faithful_witness :
    wfVal (Val.vdict [(Val.vstr "a", Val.vlist [Val.vint 1, Val.vint 2]),
      (Val.vstr "b", Val.vobj "Payload" [(Val.vstr "n", Val.vtuple [Val.vnone])])]) = true ∧
    firstDiff
      (snapshot (Val.vdict [(Val.vstr "a", Val.vlist [Val.vint 1, Val.vint 2]),
        (Val.vstr "b", Val.vobj "Payload" [(Val.vstr "n", Val.vtuple [Val.vnone])])]))
      (Val.vdict [(Val.vstr "a", Val.vlist [Val.vint 1, Val.vint 2]),
        (Val.vstr "b", Val.vobj "Payload" [(Val.vstr "n", Val.vtuple [Val.vnone])])])
      [] = none := by
  refine ⟨?_, snapshot_structurally_faithful _ ?_⟩ <;>
    simp [wfVal, wfList, wfEntries, nodupKeys, keysOf, memV, beqVal]

theorem added_ne_nil_of_not_sameSet (da db : List (Val × Val))
    (h : sameSet (keysOf da) (keysOf db) = false)
    (hm : missingKeys da db = []) : addedKeys da db ≠ [] := by
  intro ha
  have hmiss : ∀ k ∈ keysOf da, memV k (keysOf db) = true := by
    intro k hk
    have := List.filter_eq_nil_iff.mp hm k hk
    simpa using this
  have hadd : ∀ k ∈ keysOf db, memV k (keysOf da) = true := by
    intro k hk
    have := List.filter_eq_nil_iff.mp ha k hk
    simpa using this
  have : sameSet (keysOf da) (keysOf db) = true := by
    simp only [sameSet, Bool.and_eq_true, List.all_eq_true]
    exact ⟨hmiss, hadd⟩
  rw [this] at h
  cases h

/-- C8: the rules of `_first_diff` apply in priority order — a runtime
type mismatch is reported at the current path without descending; a
dict key-set mismatch reports missing keys, then added keys, before any
value is compared; with equal key sets the dict is descended by the
value loop in the first dict's stable insertion order; an ordered
sequence reports a length mismatch as its own diff kind under the
`<len>` sentinel segment before any element-by-element comparison. -/
theorem first_diff_rule_priority
    (a b : Val) (da db : List (Val × Val)) (la lb : List Val) (p : Path) :
    (sameType a b = false →
      firstDiff a b p = some (p, "type " ++ pytype a ++ " -> " ++ pytype b)) ∧
    (sameSet (keysOf da) (keysOf db) = false → missingKeys da db ≠ [] →
      firstDiff (Val.vdict da) (Val.vdict db) p =
        some (p ++ ["<dict-keys>"],
          "missing keys " ++ describeCollection (missingKeys da db))) ∧
    (sameSet (keysOf da) (keysOf db) = false → missingKeys da db = [] →
      addedKeys da db ≠ [] ∧
      firstDiff (Val.vdict da) (Val.vdict db) p =
        some (p ++ ["<dict-keys>"],
          "added keys " ++ describeCollection (addedKeys da db))) ∧
    (sameSet (keysOf da) (keysOf db) = true →
      firstDiff (Val.vdict da) (Val.vdict db) p = dictEntriesDiff da db p) ∧
    (firstDiff (Val.vlist la) (Val.vlist lb) p = compareSequence la lb p ∧
      firstDiff (Val.vtuple la) (Val.vtuple lb) p = compareSequence la lb p) ∧
    (la.length ≠ lb.length →
      compareSequence la lb p =
        some (p ++ ["<len>"],
          toString la.length ++ " -> " ++ toString lb.length)) ∧
    (la.length = lb.length → compareSequence la lb p = seqZipDiff la lb p 0) := by
  refine ⟨firstDiff_type_mismatch a b p, ?_, ?_, ?_,
    ⟨firstDiff_vlist la lb p, firstDiff_vtuple la lb p⟩, ?_, ?_⟩
  · intro h1 h2
    rw [firstDiff_vdict, dictDiff.eq_def]
    rw [if_pos ⟨h1, h2⟩]
  · intro h1 h2
    have hadd := added_ne_nil_of_not_sameSet da db h1 h2
    refine ⟨hadd, ?_⟩
    rw [firstDiff_vdict, dictDiff.eq_def]
    rw [if_neg (by simp [h2]), if_pos ⟨h1, hadd⟩]
  · exact fun h => by rw [firstDiff_vdict]; exact dictDiff_sameSet da db p h
  · intro h
    rw [compareSequence.eq_def, if_pos h]
  · intro h
    rw [compareSequence.eq_def, if_neg (by simp [h])]

/-- Witness for C8, exercising each rule at concrete inputs. -/
theorem first_diff_rule_priority_witness :
    (firstDiff (Val.vint 1) (Val.vstr "x") [] =
      some ([], "type " ++ pytype (Val.vint 1) ++ " -> " ++ pytype (Val.vstr "x"))) ∧
    (firstDiff (Val.vdict [(Val.vstr "a", Val.vint 1)]) (Val.vdict []) ["p"] =
      some (["p", "<dict-keys>"], "missing keys " ++
        describeCollection (missingKeys [(Val.vstr "a", Val.vint 1)] []))) ∧
    (firstDiff (Val.vdict []) (Val.vdict [(Val.vstr "a", Val.vint 1)]) ["p"] =
      some (["p", "<dict-keys>"], "added keys " ++
        describeCollection (addedKeys [] [(Val.vstr "a", Val.vint 1)]))) ∧
    (firstDiff (Val.vdict [(Val.vstr "a", Val.vint 1)])
        (Val.vdict [(Val.vstr "a", Val.vint 2)]) [] =
      dictEntriesDiff [(Val.vstr "a", Val.vint 1)] [(Val.vstr "a", Val.vint 2)] []) ∧
    (compareSequence [Val.vint 1] [] ["q"] =
      some (["q", "<len>"], toString ([Val.vint 1].length) ++ " -> " ++
        toString (List.length ([] : List Val)))) ∧
    (compareSequence [Val.vint 1] [Val.vint 2] [] =
      seqZipDiff [Val.vint 1] [Val.vint 2] [] 0) := by
  refine ⟨?_, ?_, ?_, ?_, ?_, ?_⟩
  · exact (first_diff_rule_priority (Val.vint 1) (Val.vstr "x") [] [] [] [] []).1
      (by simp [sameType])
  · exact (first_diff_rule_priority Val.vnone Val.vnone
      [(Val.vstr "a", Val.vint 1)] [] [] [] ["p"]).2.1
      (by simp [sameSet, keysOf, memV, beqVal])
      (by simp [missingKeys, keysOf, memV, beqVal])
  · exact ((first_diff_rule_priority Val.vnone Val.vnone
      [] [(Val.vstr "a", Val.vint 1)] [] [] ["p"]).2.2.1
      (by simp [sameSet, keysOf, memV, beqVal])
      (by simp [missingKeys, keysOf, memV, beqVal])).2
  · exact (first_diff_rule_priority Val.vnone Val.vnone
      [(Val.vstr "a", Val.vint 1)] [(Val.vstr "a", Val.vint 2)] [] [] []).2.2.2.1
      (by simp [sameSet, keysOf, memV, beqVal])
  · exact (first_diff_rule_priority Val.vnone Val.vnone [] []
      [Val.vint 1] [] ["q"]).2.2.2.2.2.1 (by simp)
  · exact (first_diff_rule_priority Val.vnone Val.vnone [] []
      [Val.vint 1] [Val.vint 2] []).2.2.2.2.2.2 (by simp)

/-- Witness for C1 at a concrete read-only call. -/
theorem detect_immutable_witness :
    detectImmutable (fun a k => ⟨Val.vint 7, a, k⟩)
      [Val.vlist [Val.vint 1]] [("x", Val.vint 2)] =
      Except.ok ((fun (a : List Val) (k : List (String × Val)) =>
        (⟨Val.vint 7, a, k⟩ : CallBehavior))
          [Val.vlist [Val.vint 1]] [("x", Val.vint 2)]).result := by
  exact (detect_immutable_raises_iff_mutation (fun a k => ⟨Val.vint 7, a, k⟩)
    [Val.vlist [Val.vint 1]] [("x", Val.vint 2)] rfl rfl (by simp)).2.2
    ⟨rfl, rfl, by simp [wfList, wfVal], by simp [wfList, wfVal]⟩

/-! ### The `enforce_deterministic` cache

`_pickle_args` serializes `(args, kwargs)` with `pickle.dumps`.  The
pickle byte stream is modelled by a token stream: one header token per
value (container headers carrying the length), followed by the encoded
children.  Crucially, `pickle` writes dict items in the dict's
iteration (insertion) order, which the token stream mirrors. -/

/-- Tokens of the modelled pickle stream. -/
inductive PTok where
  | tnone : PTok
  | tbool : Bool → PTok
  | tint : Int → PTok
  | tstr : String → PTok
  | tlist : Nat → PTok
  | ttuple : Nat → PTok
  | tdict : Nat → PTok
  | tset : Nat → PTok
  | tfset : Nat → PTok
  | tobj : String → Nat → PTok
deriving Repr, DecidableEq

mutual

/-- The modelled `pickle.dumps` stream of one value. -/
def encodeVal : Val → List PTok
  | .vnone => [.tnone]
  | .vbool b => [.tbool b]
  | .vint n => [.tint n]
  | .vstr s => [.tstr s]
  | .vlist xs => .tlist xs.length :: encodeList xs
  | .vtuple xs => .ttuple xs.length :: encodeList xs
  | .vdict es => .tdict es.length :: encodeEntries es
  | .vset xs => .tset xs.length :: encodeList xs
  | .vfrozenset xs => .tfset xs.length :: encodeList xs
  | .vobj c fs => .tobj c fs.length :: encodeEntries fs
termination_by a => sizeOf a

/-- Encode list elements in order. -/
def encodeList : List Val → List PTok
  | [] => []
  | x :: xs => encodeVal x ++ encodeList xs
termination_by a => sizeOf a

/-- Encode dict entries in iteration order, key then value. -/
def encodeEntries : List (Val × Val) → List PTok
  | [] => []
  | (k, v) :: es => encodeVal k ++ encodeVal v ++ encodeEntries es
termination_by a => sizeOf a

end

mutual

theorem encodeVal_append_inj : (a : Val) → ∀ (b : Val) (r s : List PTok),
    encodeVal a ++ r = encodeVal b ++ s → a = b ∧ r = s
  | .vnone, b, r, s => by cases b <;> simp [encodeVal]
  | .vbool x, b, r, s => by
      cases b <;> simp [encodeVal]
  | .vint x, b, r, s => by
      cases b <;> simp [encodeVal]
  | .vstr x, b, r, s => by
      cases b <;> simp [encodeVal]
  | .vlist xs, b, r, s => by
      cases b <;> simp [encodeVal]
      intro hlen happ
      obtain ⟨rfl, hrs⟩ := encodeList_append_inj xs _ r s hlen happ
      exact ⟨rfl, hrs⟩
  | .vtuple xs, b, r, s => by
      cases b <;> simp [encodeVal]
      intro hlen happ
      obtain ⟨rfl, hrs⟩ := encodeList_append_inj xs _ r s hlen happ
      exact ⟨rfl, hrs⟩
  | .vset xs, b, r, s => by
      cases b <;> simp [encodeVal]
      intro hlen happ
      obtain ⟨rfl, hrs⟩ := encodeList_append_inj xs _ r s hlen happ
      exact ⟨rfl, hrs⟩
  | .vfrozenset xs, b, r, s => by
      cases b <;> simp [encodeVal]
      intro hlen happ
      obtain ⟨rfl, hrs⟩ := encodeList_append_inj xs _ r s hlen happ
      exact ⟨rfl, hrs⟩
  | .vdict es, b, r, s => by
      cases b <;> simp [encodeVal]
      intro hlen happ
      obtain ⟨rfl, hrs⟩ := encodeEntries_append_inj es _ r s hlen happ
      exact ⟨rfl, hrs⟩
  | .vobj c fs, b, r, s => by
      cases b <;> simp [encodeVal]
      rintro rfl hlen happ
      obtain ⟨rfl, hrs⟩ := encodeEntries_append_inj fs _ r s hlen happ
      exact ⟨⟨rfl, rfl⟩, hrs⟩
termination_by a => sizeOf a

theorem encodeList_append_inj : (xs : List Val) → ∀ (ys : List Val)
    (r s : List PTok), xs.length = ys.length →
    encodeList xs ++ r = encodeList ys ++ s → xs = ys ∧ r = s
  | [], ys, r, s => by
      cases ys <;> simp [encodeList]
  | x :: xs, ys, r, s => by
      cases ys with
      | nil => simp
      | cons y ys2 =>
          intro hlen happ
          simp only [encodeList, List.append_assoc] at happ
          obtain ⟨rfl, h2⟩ := encodeVal_append_inj x y _ _ happ
          obtain ⟨rfl, hrs⟩ := encodeList_append_inj xs ys2 r s (by simpa using hlen) h2
          exact ⟨rfl, hrs⟩
termination_by xs => sizeOf xs

theorem encodeEntries_append_inj : (es : List (Val × Val)) →
    ∀ (fs : List (Val × Val)) (r s : List PTok), es.length = fs.length →
    encodeEntries es ++ r = encodeEntries fs ++ s → es = fs ∧ r = s
  | [], fs, r, s => by
      cases fs <;> simp [encodeEntries]
  | (k, v) :: es, fs, r, s => by
      cases fs with
      | nil => simp
      | cons hd fs2 =>
          obtain ⟨k2, v2⟩ := hd
          intro hlen happ
          simp only [encodeEntries, List.append_assoc] at happ
          obtain ⟨rfl, h2⟩ := encodeVal_append_inj k k2 _ _ happ
          obtain ⟨rfl, h3⟩ := encodeVal_append_inj v v2 _ _ h2
          obtain ⟨rfl, hrs⟩ :=
            encodeEntries_append_inj es fs2 r s (by simpa using hlen) h3
          exact ⟨rfl, hrs⟩
termination_by es => sizeOf es

end

/-- Keyword arguments as the dict value pickled by `_pickle_args`. -/
def kwargsAsDict (kw : List (String × Val)) : List (Val × Val) :=
  kw.map (fun kv => (Val.vstr kv.1, kv.2))

/-- `_pickle_args(*args, **kwargs)`: the pickle stream of the pair
`(args, kwargs)` used as the cache key. -/
def pickleArgs (args : List Val) (kwargs : List (String × Val)) : List PTok :=
  encodeVal (.vtuple [.vtuple args, .vdict (kwargsAsDict kwargs)])

theorem encodeVal_inj (a b : Val) (h : encodeVal a = encodeVal b) : a = b := by
  have := encodeVal_append_inj a b [] [] (by simpa using h)
  exact this.1

/-- C6 counterexample: two calls with no positional arguments and the
same keyword-argument mapping — the same two pairs, supplied in the
opposite order — are encoded to different cache keys, so they do not
share a cache entry. -/
theorem pickle_args_kwarg_order_counterexample :
    lookupS [("a", Val.vint 1), ("b", Val.vint 2)] "a" =
      lookupS [("b", Val.vint 2), ("a", Val.vint 1)] "a" ∧
    lookupS [("a", Val.vint 1), ("b", Val.vint 2)] "b" =
      lookupS [("b", Val.vint 2), ("a", Val.vint 1)] "b" ∧
    List.Perm [("a", Val.vint 1), ("b", Val.vint 2)]
      [("b", Val.vint 2), ("a", Val.vint 1)] ∧
    pickleArgs [] [("a", Val.vint 1), ("b", Val.vint 2)] ≠
      pickleArgs [] [("b", Val.vint 2), ("a", Val.vint 1)] := by
  refine ⟨by simp [lookupS], by simp [lookupS], ?_, ?_⟩
  · exact List.Perm.swap _ _ []
  · intro h
    simp [pickleArgs, encodeVal, encodeList, encodeEntries, kwargsAsDict] at h

/-- C6 (amended): the encoding is canonical exactly up to the argument
tuple and the kwargs dict in its iteration order — two calls share a
cache key if and only if their positional argument lists are equal and
their keyword-argument lists are equal element-wise in the same
insertion order; the same mapping supplied in a different keyword order
is not guaranteed (and in general fails) to share an entry. -/
theorem pickle_args_canonical_up_to_order
    (args1 args2 : List Val) (kw1 kw2 : List (String × Val)) :
    pickleArgs args1 kw1 = pickleArgs args2 kw2 ↔
      (args1 = args2 ∧ kw1 = kw2) := by
  constructor
  · intro h
    have := encodeVal_inj _ _ h
    simp only [Val.vtuple.injEq, Val.vdict.injEq, List.cons.injEq,
      and_true] at this
    obtain ⟨h1, hd⟩ := this
    refine ⟨h1, ?_⟩
    have : ∀ (l1 l2 : List (String × Val)),
        kwargsAsDict l1 = kwargsAsDict l2 → l1 = l2 := by
      intro l1
      induction l1 with
      | nil => intro l2 h; cases l2 <;> simp_all [kwargsAsDict]
      | cons hd2 tl ih =>
          intro l2 h
          cases l2 with
          | nil => simp [kwargsAsDict] at h
          | cons hd3 tl2 =>
              obtain ⟨x1, y1⟩ := hd2
              obtain ⟨x2, y2⟩ := hd3
              simp only [kwargsAsDict, List.map_cons, List.cons.injEq,
                Prod.mk.injEq, Val.vstr.injEq] at h
              obtain ⟨⟨hx, hy⟩, htl⟩ := h
              subst hx
              subst hy
              rw [ih tl2 (by simpa [kwargsAsDict] using htl)]
    exact this kw1 kw2 hd
  · rintro ⟨rfl, rfl⟩
    rfl

/-! ### The `enforce_deterministic` wrapper -/

/-- Drop-in for `dict[bytes, T]`: the result cache. -/
abbrev Cache := List (List PTok × Val)

/-- `cache.get(key, _MISSING)`, `_MISSING` modelled by `none`. -/
def cacheGet : Cache → List PTok → Option Val
  | [], _ => none
  | (k2, v) :: rest, k => if k2 = k then some v else cacheGet rest k

/-- `cache[key] = value`. -/
def cacheSet : Cache → List PTok → Val → Cache
  | [], k, v => [(k, v)]
  | (k2, v2) :: rest, k, v =>
      if k2 = k then (k, v) :: rest else (k2, v2) :: cacheSet rest k v

/-- The observable outcome of one wrapped call: the raised-or-returned
result, whether the permissive diagnostic was logged, and the cache
afterwards. -/
structure StepResult where
  outcome : Except String Val
  warned : Bool
  cache : Cache
deriving Repr

/-- One call through `_sync_wrapper`: read the cached entry under the
lock, invoke `fn` (the call produced `fresh`), then compare and store.
Sequential semantics: the lock bodies are atomic and no other call
interleaves, so the re-check under the lock sees the same cache as the
initial read. -/
def syncStep (strict : Bool) (cache : Cache) (key : List PTok)
    (fresh : Val) : StepResult :=
  let cached := cacheGet cache key
  match cached with
  | some c =>
      if beqVal c fresh = false then
        if strict then
          ⟨.error "Non-deterministic output detected", false, cache⟩
        else ⟨.ok fresh, true, cacheSet cache key fresh⟩
      else ⟨.ok fresh, false, cache⟩
  | none =>
      let current := cacheGet cache key
      match current with
      | some c2 =>
          if beqVal c2 fresh = false then
            if strict then
              ⟨.error "Non-deterministic output detected", false, cache⟩
            else ⟨.ok fresh, true, cacheSet cache key fresh⟩
          else ⟨.ok fresh, false, cacheSet cache key fresh⟩
      | none => ⟨.ok fresh, false, cacheSet cache key fresh⟩

/-- One call through `_async_wrapper`: identical logic, with the
`asyncio.Lock` sections as the suspension points.  In the cooperative
single-threaded model no other task holds the lock, so the awaited
sections run atomically in call order. -/
def asyncStep (strict : Bool) (cache : Cache) (key : List PTok)
    (fresh : Val) : StepResult :=
  let cached := cacheGet cache key
  match cached with
  | some c =>
      if beqVal c fresh = false then
        if strict then
          ⟨.error "Non-deterministic output detected", false, cache⟩
        else ⟨.ok fresh, true, cacheSet cache key fresh⟩
      else ⟨.ok fresh, false, cache⟩
  | none =>
      let current := cacheGet cache key
      match current with
      | some c2 =>
          if beqVal c2 fresh = false then
            if strict then
              ⟨.error "Non-deterministic output detected", false, cache⟩
            else ⟨.ok fresh, true, cacheSet cache key fresh⟩
          else ⟨.ok fresh, false, cacheSet cache key fresh⟩
      | none => ⟨.ok fresh, false, cacheSet cache key fresh⟩

/-- A call supplies arguments (already encoded to the key by
`_pickle_args`) and the value the wrapped function returns this time. -/
def runSync (strict : Bool) : List (List PTok × Val) → Cache →
    List (Except String Val × Bool) × Cache
  | [], c => ([], c)
  | (k, v) :: calls, c =>
      let r := syncStep strict c k v
      let rest := runSync strict calls r.cache
      ((r.outcome, r.warned) :: rest.1, rest.2)

/-- The same call sequence through the asynchronous wrapper. -/
def runAsync (strict : Bool) : List (List PTok × Val) → Cache →
    List (Except String Val × Bool) × Cache
  | [], c => ([], c)
  | (k, v) :: calls, c =>
      let r := asyncStep strict c k v
      let rest := runAsync strict calls r.cache
      ((r.outcome, r.warned) :: rest.1, rest.2)

/-- C5: in strict mode one call through the DeterminismCache raises
exactly when a previously stored result for the same encoded arguments
exists and differs by value equality from the fresh result; a first
call with any given arguments stores and returns the fresh result and
never fails; in permissive mode the same divergence instead logs the
diagnostic, updates the cache to the newest value and returns it, and
an equal stored value is returned silently. -/
theorem enforce_deterministic_contract (strict : Bool) (cache : Cache)
    (args : List Val) (kwargs : List (String × Val)) (fresh : Val) :
    (strict = true →
      ((∃ e, (syncStep strict cache (pickleArgs args kwargs) fresh).outcome =
          Except.error e) ↔
        (∃ v, cacheGet cache (pickleArgs args kwargs) = some v ∧
          beqVal v fresh = false))) ∧
    (cacheGet cache (pickleArgs args kwargs) = none →
      syncStep strict cache (pickleArgs args kwargs) fresh =
        ⟨Except.ok fresh, false,
          cacheSet cache (pickleArgs args kwargs) fresh⟩) ∧
    (strict = false →
      (syncStep strict cache (pickleArgs args kwargs) fresh).outcome =
        Except.ok fresh) ∧
    (strict = false → ∀ v,
      cacheGet cache (pickleArgs args kwargs) = some v →
      beqVal v fresh = false →
      syncStep strict cache (pickleArgs args kwargs) fresh =
        ⟨Except.ok fresh, true,
          cacheSet cache (pickleArgs args kwargs) fresh⟩) ∧
    (∀ v, cacheGet cache (pickleArgs args kwargs) = some v →
      beqVal v fresh = true →
      syncStep strict cache (pickleArgs args kwargs) fresh =
        ⟨Except.ok fresh, false, cache⟩) := by
  generalize pickleArgs args kwargs = K
  rcases hc : cacheGet cache K with _ | v
  · refine ⟨?_, ?_, ?_, ?_, ?_⟩
    · intro _
      constructor
      · rintro ⟨e, he⟩
        simp [syncStep, hc] at he
      · rintro ⟨v, hv, _⟩
        cases hv
    · intro _
      simp [syncStep, hc]
    · intro _
      simp [syncStep, hc]
    · intro _ v hv
      cases hv
    · intro v hv
      cases hv
  · rcases hbv : beqVal v fresh with _ | _
    · cases strict
      · refine ⟨?_, ?_, ?_, ?_, ?_⟩
        · intro hs
          cases hs
        · intro h
          cases h
        · intro _
          simp [syncStep, hc, hbv]
        · intro _ v2 hv2 _
          injection hv2 with h2
          subst h2
          simp [syncStep, hc, hbv]
        · intro v2 hv2 hb2
          injection hv2 with h2
          subst h2
          rw [hbv] at hb2
          cases hb2
      · refine ⟨?_, ?_, ?_, ?_, ?_⟩
        · intro _
          constructor
          · intro _
            exact ⟨v, rfl, hbv⟩
          · intro _
            refine ⟨"Non-deterministic output detected", ?_⟩
            simp [syncStep, hc, hbv]
        · intro h
          cases h
        · intro h
          cases h
        · intro h
          cases h
        · intro v2 hv2 hb2
          injection hv2 with h2
          subst h2
          rw [hbv] at hb2
          cases hb2
    · refine ⟨?_, ?_, ?_, ?_, ?_⟩
      · intro _
        constructor
        · rintro ⟨e, he⟩
          simp [syncStep, hc, hbv] at he
        · rintro ⟨v2, hv2, hb2⟩
          injection hv2 with h2
          subst h2
          rw [hbv] at hb2
          cases hb2
      · intro h
        cases h
      · intro _
        simp [syncStep, hc, hbv]
      · intro _ v2 hv2 hb2
        injection hv2 with h2
        subst h2
        rw [hbv] at hb2
        cases hb2
      · intro v2 hv2 hb2
        simp [syncStep, hc, hbv]

/-- Witness for C5: a first call stores and succeeds; a strict second
call with a different fresh value fails; a permissive second call warns,
updates and returns. -/
theorem enforce_deterministic_contract_witness :
    (syncStep true [] (pickleArgs [Val.vint 1] []) (Val.vint 10) =
      ⟨Except.ok (Val.vint 10), false,
        cacheSet [] (pickleArgs [Val.vint 1] []) (Val.vint 10)⟩) ∧
    (∃ e, (syncStep true [(pickleArgs [Val.vint 1] [], Val.vint 10)]
      (pickleArgs [Val.vint 1] []) (Val.vint 11)).outcome = Except.error e) ∧
    (syncStep false [(pickleArgs [Val.vint 1] [], Val.vint 10)]
      (pickleArgs [Val.vint 1] []) (Val.vint 11) =
      ⟨Except.ok (Val.vint 11), true,
        cacheSet [(pickleArgs [Val.vint 1] [], Val.vint 10)]
          (pickleArgs [Val.vint 1] []) (Val.vint 11)⟩) := by
  refine ⟨?_, ?_, ?_⟩
  · exact (enforce_deterministic_contract true [] [Val.vint 1] []
      (Val.vint 10)).2.1 rfl
  · exact ((enforce_deterministic_contract true
      [(pickleArgs [Val.vint 1] [], Val.vint 10)] [Val.vint 1] []
      (Val.vint 11)).1 rfl).mpr
      ⟨Val.vint 10, by simp [cacheGet], by simp [beqVal]⟩
  · exact (enforce_deterministic_contract false
      [(pickleArgs [Val.vint 1] [], Val.vint 10)] [Val.vint 1] []
      (Val.vint 11)).2.2.2.1 rfl (Val.vint 10) (by simp [cacheGet])
      (by simp [beqVal])

/-- C9: the synchronous and the suspendable DeterminismCache wrappers
have the same sequential semantics — step by step and over any call
sequence they produce the same outcomes (returns, raises, diagnostics)
and the same cache contents. -/
theorem enforce_deterministic_sync_async_equiv (strict : Bool)
    (calls : List (List PTok × Val)) (cache : Cache) :
    runAsync strict calls cache = runSync strict calls cache ∧
    ∀ (c2 : Cache) (key : List PTok) (fresh : Val),
      asyncStep strict c2 key fresh = syncStep strict c2 key fresh := by
  have hstep : ∀ (c2 : Cache) (key : List PTok) (fresh : Val),
      asyncStep strict c2 key fresh = syncStep strict c2 key fresh := by
    intro c2 key fresh
    unfold asyncStep syncStep
    rfl
  refine ⟨?_, hstep⟩
  induction calls generalizing cache with
  | nil => rfl
  | cons hd tl ih =>
      obtain ⟨k, v⟩ := hd
      simp only [runAsync, runSync, hstep]
      rw [ih]

/-! ### The `forbid_side_effects` patch registry and sandbox

The catalog is a list of (slot, factory) entries: a slot names a
(target object, attribute name) pair, and the factory builds the
replacement from the strictness flag and the original value (`_trap`
for `patch_callable`, the `_TrapStdIO` / `_TrapEnviron` / datetime
wrappers for `patch_value`).  Global state maps each slot to its
current value. -/

section Sandbox

variable {Slot : Type} [DecidableEq Slot] {α : Type}

/-- `_apply_patches(strict)`: for each catalog entry in order, record
the slot's current value as a descriptor, then overwrite the slot with
the factory's replacement.  Returns the descriptors in application
order together with the patched state. -/
def applyPatches (strict : Bool)
    (catalog : List (Slot × (Bool → α → α))) (σ : Slot → α) :
    List (Slot × α) × (Slot → α) :=
  match catalog with
  | [] => ([], σ)
  | (s, factory) :: rest =>
      let orig := σ s
      let σ2 := Function.update σ s (factory strict orig)
      let r := applyPatches strict rest σ2
      ((s, orig) :: r.1, r.2)

/-- `_restore(patches)`: iterate the descriptors in reverse order and
write each recorded original value back. -/
def restorePatches (patches : List (Slot × α)) (σ : Slot → α) : Slot → α :=
  patches.reverse.foldl (fun τ p => Function.update τ p.1 p.2) σ

theorem restorePatches_nil (σ : Slot → α) : restorePatches [] σ = σ := rfl

theorem restorePatches_cons (s : Slot) (v : α) (ps : List (Slot × α))
    (σ : Slot → α) :
    restorePatches ((s, v) :: ps) σ =
      Function.update (restorePatches ps σ) s v := by
  unfold restorePatches
  rw [List.reverse_cons, List.foldl_append]
  rfl

/-- C3: for every strictness setting and every catalog, restoring the
descriptor list produced by `apply` returns every patched slot — in
fact the whole global state — to exactly its pre-apply value. -/
theorem apply_restore_roundtrip (strict : Bool)
    (catalog : List (Slot × (Bool → α → α))) (σ : Slot → α) :
    restorePatches (applyPatches strict catalog σ).1
      (applyPatches strict catalog σ).2 = σ := by
  induction catalog generalizing σ with
  | nil => rfl
  | cons hd rest ih =>
      obtain ⟨s, factory⟩ := hd
      simp only [applyPatches]
      rw [restorePatches_cons]
      rw [ih (Function.update σ s (factory strict (σ s)))]
      rw [Function.update_idem, Function.update_eq_self]

/-- Restoration overwrites every catalog slot with its first recorded
original, whatever the guarded call did to the state in between. -/
theorem restore_applied_slot (strict : Bool) :
    ∀ (catalog : List (Slot × (Bool → α → α))) (σ σ2 : Slot → α) (s : Slot),
    s ∈ catalog.map Prod.fst →
    restorePatches (applyPatches strict catalog σ).1 σ2 s = σ s
  | [], σ, σ2, s, hm => by cases hm
  | (s0, factory) :: rest, σ, σ2, s, hm => by
      simp only [applyPatches]
      rw [restorePatches_cons]
      by_cases hs : s = s0
      · subst hs
        simp [Function.update_same]
      · have hmem : s ∈ rest.map Prod.fst := by
          rcases List.mem_cons.mp hm with h | h
          · exact absurd h hs
          · exact h
        rw [Function.update_noteq hs]
        rw [restore_applied_slot strict rest
          (Function.update σ s0 (factory strict (σ s0))) σ2 s hmem]
        rw [Function.update_noteq hs]

/-- The synchronous wrapper of `forbid_side_effects`: take the lock,
apply the catalog, run the guarded call — which may itself change
global state and either return or raise — and restore the descriptors
in the `finally`, propagating the call's outcome. -/
def sandboxSyncWrapper (strict : Bool)
    (catalog : List (Slot × (Bool → α → α)))
    (call : (Slot → α) → (Slot → α) × Except String Val)
    (σ : Slot → α) : (Slot → α) × Except String Val :=
  let applied := applyPatches strict catalog σ
  let r := call applied.2
  (restorePatches applied.1 r.1, r.2)

/-- The asynchronous wrapper: identical shape, with the awaited call in
the `try` and restoration in the `finally`. -/
def sandboxAsyncWrapper (strict : Bool)
    (catalog : List (Slot × (Bool → α → α)))
    (call : (Slot → α) → (Slot → α) × Except String Val)
    (σ : Slot → α) : (Slot → α) × Except String Val :=
  let applied := applyPatches strict catalog σ
  let r := call applied.2
  (restorePatches applied.1 r.1, r.2)

/-- C4: on every exit path — the guarded call returning or raising, and
whatever the call did to global state — both sandbox wrappers restore
every patched slot to its pre-call value before propagating the call's
outcome unchanged. -/
theorem sandbox_restores_on_every_exit (strict : Bool)
    (catalog : List (Slot × (Bool → α → α)))
    (call : (Slot → α) → (Slot → α) × Except String Val)
    (σ : Slot → α) (s : Slot) (hs : s ∈ catalog.map Prod.fst) :
    ((sandboxSyncWrapper strict catalog call σ).1 s = σ s ∧
      (sandboxSyncWrapper strict catalog call σ).2 =
        (call (applyPatches strict catalog σ).2).2) ∧
    ((sandboxAsyncWrapper strict catalog call σ).1 s = σ s ∧
      (sandboxAsyncWrapper strict catalog call σ).2 =
        (call (applyPatches strict catalog σ).2).2) := by
  refine ⟨⟨?_, rfl⟩, ⟨?_, rfl⟩⟩ <;>
    exact restore_applied_slot strict catalog σ _ s hs

end Sandbox

/-- Witness for C4: a single-slot catalog, a guarded call that both
tramples the slot and raises; the wrapper still propagates the raise
and leaves the slot at its pre-call value (both variants). -/
theorem sandbox_restores_on_every_exit_witness :
    (("so", "out") ∈ [(("so", "out"), fun (_ : Bool) (_ : String) => "trap")].map
      Prod.fst) ∧
    ((sandboxSyncWrapper true
        [(("so", "out"), fun (_ : Bool) (_ : String) => "trap")]
        (fun σ1 => (Function.update σ1 ("so", "out") "junk",
          Except.error "boom"))
        (fun _ => "orig")).1 ("so", "out") = (fun (_ : String × String) => "orig") ("so", "out") ∧
      (sandboxSyncWrapper true
        [(("so", "out"), fun (_ : Bool) (_ : String) => "trap")]
        (fun σ1 => (Function.update σ1 ("so", "out") "junk",
          Except.error "boom"))
        (fun _ => "orig")).2 =
          ((fun (σ1 : String × String → String) =>
            (Function.update σ1 ("so", "out") "junk", Except.error "boom"))
          ((applyPatches true
            [(("so", "out"), fun (_ : Bool) (_ : String) => "trap")]
            (fun _ => "orig")).2)).2) := by
  refine ⟨by simp, ?_⟩
  exact (sandbox_restores_on_every_exit true
    [(("so", "out"), fun (_ : Bool) (_ : String) => "trap")]
    (fun σ1 => (Function.update σ1 ("so", "out") "junk", Except.error "boom"))
    (fun _ => "orig") ("so", "out") (by simp)).1

/-! ### The `enforce_immutable` wrapper

`copy.deepcopy` refreshes object identity while preserving sharing
within one call through its memo.  Identity is modelled explicitly: a
node carries an identity `(generation, serial)`; one `deepcopy` call
maps every reachable node's identity `(g, n)` to `(gen, n)` for the
call's fresh generation `gen`, so sharing inside the copied group is
preserved (equal identities stay equal) while two separate `deepcopy`
calls — `enforce_immutable.wrapper` performs one for `args` and another
for `kwargs`, with no shared memo — produce copies in distinct
generations. -/

/-- A value node with explicit object identity. -/
inductive IdVal where
  | node : Nat × Nat → List IdVal → IdVal
deriving Repr

/-- The identity (`id(x)`) of a node. -/
def IdVal.getId : IdVal → Nat × Nat
  | .node i _ => i

mutual

/-- One memoised `deepcopy` call with fresh generation `gen`. -/
def relabel (gen : Nat) : IdVal → IdVal
  | .node i cs => .node (gen, i.2) (relabelList gen cs)
termination_by v => sizeOf v

/-- `deepcopy` of a list of values within the same call (same memo). -/
def relabelList (gen : Nat) : List IdVal → List IdVal
  | [] => []
  | v :: vs => relabel gen v :: relabelList gen vs
termination_by vs => sizeOf vs

end

mutual

/-- All objects reachable from a value (the value itself included). -/
def subtrees : IdVal → List IdVal
  | .node i cs => .node i cs :: subtreesList cs
termination_by v => sizeOf v

/-- All objects reachable from a group of values. -/
def subtreesList : List IdVal → List IdVal
  | [] => []
  | v :: vs => subtrees v ++ subtreesList vs
termination_by vs => sizeOf vs

end

/-- All objects reachable from an argument group. -/
def allSubtrees (vs : List IdVal) : List IdVal := subtreesList vs

theorem relabelList_eq_map (gen : Nat) : ∀ vs : List IdVal,
    relabelList gen vs = vs.map (relabel gen)
  | [] => by rw [relabelList]; rfl
  | v :: vs => by rw [relabelList, relabelList_eq_map gen vs]; rfl

theorem getId_relabel (gen : Nat) (v : IdVal) :
    (relabel gen v).getId = (gen, v.getId.2) := by
  cases v with
  | node i cs => rw [relabel]; rfl

mutual

theorem subtrees_relabel (gen : Nat) : ∀ v : IdVal,
    subtrees (relabel gen v) = (subtrees v).map (relabel gen)
  | .node i cs => by
      rw [relabel, subtrees.eq_1, subtrees.eq_1, subtreesList_relabel gen cs,
        List.map_cons, relabel]
termination_by v => sizeOf v

theorem subtreesList_relabel (gen : Nat) : ∀ vs : List IdVal,
    subtreesList (relabelList gen vs) = (subtreesList vs).map (relabel gen)
  | [] => by
      rw [relabelList, subtreesList.eq_1]
      simp
  | v :: vs => by
      rw [relabelList, subtreesList.eq_2, subtreesList.eq_2, List.map_append,
        subtrees_relabel gen v, subtreesList_relabel gen vs]
termination_by vs => sizeOf vs

end

/-- `enforce_immutable(fn)` at one call: deep-copy the positional tuple
with one `deepcopy` call (generation 1) and the kwargs dict with a
second, independent `deepcopy` call (generation 2), then invoke `fn`
on the copies. -/
def enforceImmutable {β : Type} (f : List IdVal → List (String × IdVal) → β)
    (args : List IdVal) (kwargs : List (String × IdVal)) : β :=
  let frozenArgs := relabelList 1 args
  let frozenKwargs := kwargs.map (fun kv => (kv.1, relabel 2 kv.2))
  f frozenArgs frozenKwargs

/-- C7 counterexample: the same object (identity `(0, 7)`) is reachable
from a positional argument and from a keyword argument; the wrapped
function receives copies whose identities differ — the two copies are
not identical-by-reference. -/
theorem enforce_immutable_cross_group_alias_lost :
    enforceImmutable (fun a k => (a, k)) [IdVal.node (0, 7) []]
      [("k", IdVal.node (0, 7) [])] =
      ([IdVal.node (1, 7) []], [("k", IdVal.node (2, 7) [])]) ∧
    (IdVal.node (1, 7) []).getId ≠ (IdVal.node (2, 7) []).getId := by
  constructor
  · simp [enforceImmutable, relabelList, relabel]
  · intro h
    simp [IdVal.getId] at h

/-- C7 (amended): the per-call snapshotting of `enforce_immutable`
preserves the aliasing graph within the positional arguments and within
the keyword arguments — each group is one memoised `deepcopy` call, so
the copied group's reachable objects are exactly the originals
relabelled into the call's generation, identity-sharing included — but
never across the two groups: a sub-object reachable from both a
positional and a keyword argument is copied twice, and the two copies
the function receives are never identical-by-reference. -/
theorem enforce_immutable_aliasing_within_not_across {β : Type}
    (f : List IdVal → List (String × IdVal) → β)
    (args : List IdVal) (kwargs : List (String × IdVal)) :
    (enforceImmutable f args kwargs =
      f (relabelList 1 args) (kwargs.map (fun kv => (kv.1, relabel 2 kv.2)))) ∧
    (allSubtrees (relabelList 1 args) = (allSubtrees args).map (relabel 1)) ∧
    (∀ s ∈ allSubtrees args, (relabel 1 s).getId = (1, s.getId.2)) ∧
    (∀ t ∈ allSubtrees (kwargs.map Prod.snd),
      (relabel 2 t).getId = (2, t.getId.2)) ∧
    (∀ s ∈ allSubtrees (relabelList 1 args),
      ∀ t ∈ allSubtrees
        ((kwargs.map (fun kv => (kv.1, relabel 2 kv.2))).map Prod.snd),
      s.getId ≠ t.getId) := by
  refine ⟨rfl, subtreesList_relabel 1 args, fun s _ => getId_relabel 1 s,
    fun t _ => getId_relabel 2 t, ?_⟩
  intro s hs t ht
  have hkw : (kwargs.map (fun kv => (kv.1, relabel 2 kv.2))).map Prod.snd =
      relabelList 2 (kwargs.map Prod.snd) := by
    rw [relabelList_eq_map, List.map_map, List.map_map]
    rfl
  rw [hkw] at ht
  simp only [allSubtrees] at hs ht
  rw [subtreesList_relabel 1 args] at hs
  rw [subtreesList_relabel 2 (kwargs.map Prod.snd)] at ht
  obtain ⟨s0, _, rfl⟩ := List.mem_map.mp hs
  obtain ⟨t0, _, rfl⟩ := List.mem_map.mp ht
  rw [getId_relabel, getId_relabel]
  intro h
  cases h

/-- Witness for C7 at a concrete shared object. -/
theorem enforce_immutable_aliasing_witness :
    (relabel 1 (IdVal.node (0, 7) [])) ∈
      allSubtrees (relabelList 1 [IdVal.node (0, 7) []]) ∧
    (relabel 2 (IdVal.node (0, 7) [])) ∈
      allSubtrees (([("k", IdVal.node (0, 7) [])].map
        (fun kv => (kv.1, relabel 2 kv.2))).map Prod.snd) ∧
    (relabel 1 (IdVal.node (0, 7) [])).getId ≠
      (relabel 2 (IdVal.node (0, 7) [])).getId := by
  refine ⟨?_, ?_, ?_⟩
  · simp [allSubtrees, relabelList, relabel, subtreesList, subtrees]
  · simp [allSubtrees, relabelList, relabel, subtreesList, subtrees]
  · exact (enforce_immutable_aliasing_within_not_across
      (fun a k => (a, k)) [IdVal.node (0, 7) []]
      [("k", IdVal.node (0, 7) [])]).2.2.2.2
      (relabel 1 (IdVal.node (0, 7) []))
      (by simp [allSubtrees, relabelList, relabel, subtreesList, subtrees])
      (relabel 2 (IdVal.node (0, 7) []))
      (by simp [allSubtrees, relabelList, relabel, subtreesList, subtrees])

/-! ### The `forbid_global_names` decoration-time check -/

/-- A compiled code object as the scanner sees it: the disassembled
instructions as (opname, argval) pairs, and the nested code objects
among `co_consts`. -/
inductive PyCode where
  | mk : List (String × String) → List PyCode → PyCode

/-- The instruction list of a code object. -/
def PyCode.instrs : PyCode → List (String × String)
  | .mk i _ => i

/-- The nested code constants of a code object. -/
def PyCode.consts : PyCode → List PyCode
  | .mk _ c => c

/-- The opnames scanned: `LOAD_GLOBAL` always, the store and delete
variants when requested. -/
def globalOps (includeStoreDelete : Bool) : List String :=
  if includeStoreDelete then ["LOAD_GLOBAL", "STORE_GLOBAL", "DELETE_GLOBAL"]
  else ["LOAD_GLOBAL"]

mutual

/-- `_collect_global_names`: the argvals of global-op (and, when
requested, import) instructions of a code object and, recursively, of
its nested code constants.  The Python set is modelled as a list with
possible duplicates. -/
def collectGlobalNames (isd imp : Bool) : PyCode → List String
  | .mk instrs consts =>
      (instrs.filter (fun ins =>
        (globalOps isd).contains ins.1 || (imp && ins.1 == "IMPORT_NAME"))).map
          Prod.snd ++ collectGlobalNamesList isd imp consts
termination_by c => sizeOf c

/-- Collect over the nested code constants. -/
def collectGlobalNamesList (isd imp : Bool) : List PyCode → List String
  | [] => []
  | c :: cs => collectGlobalNames isd imp c ++ collectGlobalNamesList isd imp cs
termination_by cs => sizeOf cs

end

/-- `forbid_global_names._decorate`: collect the global-like names,
discard the decorated function's own name, and fail if any remaining
name is outside `allow` (∪ the builtin names when `allow_builtins`). -/
def forbidGlobalNames (allow : List String) (allowBuiltins : Bool)
    (builtinNames : List String) (isd imp : Bool)
    (fname : String) (code : PyCode) : Except String Unit :=
  let allowSet := if allowBuiltins then allow ++ builtinNames else allow
  let used := collectGlobalNames isd imp code
  let afterDiscard := used.filter (fun n => n ≠ fname)
  let disallowed :=
    ((afterDiscard.filter (fun n => ¬ allowSet.contains n)).mergeSort
      (fun a b => decide (a ≤ b)))
  if disallowed ≠ [] then
    .error ("Global names referenced: " ++ String.intercalate ", " disallowed)
  else .ok ()

/-- C10: the decorated function's own name is never counted as a
violation — a function whose body references no global name other than
its own (for example to recurse) decorates successfully for every
allow-list, even an empty one with builtins disallowed. -/
theorem forbid_global_names_own_name_allowed
    (allow builtinNames : List String) (isd imp : Bool)
    (fname : String) (code : PyCode)
    (h : ∀ n ∈ collectGlobalNames isd imp code, n = fname) :
    forbidGlobalNames allow false builtinNames isd imp fname code =
      Except.ok () := by
  unfold forbidGlobalNames
  have hnil : List.filter (fun a => !decide (a ∈ allow) && !decide (a = fname))
      (collectGlobalNames isd imp code) = [] := by
    rw [List.filter_eq_nil_iff]
    intro n hn
    simp [h n hn]
  simp [hnil]

/-- Witness for C10: a function `fact` whose only global references —
including one inside a nested code object — are to its own name,
checked with an empty allow-list and builtins disallowed. -/
theorem forbid_global_names_own_name_allowed_witness :
    (∀ n ∈ collectGlobalNames true true
      (PyCode.mk [("LOAD_GLOBAL", "fact"), ("LOAD_FAST", "n")]
        [PyCode.mk [("LOAD_GLOBAL", "fact")] []]), n = "fact") ∧
    forbidGlobalNames [] false [] true true "fact"
      (PyCode.mk [("LOAD_GLOBAL", "fact"), ("LOAD_FAST", "n")]
        [PyCode.mk [("LOAD_GLOBAL", "fact")] []]) = Except.ok () := by
  have h : ∀ n ∈ collectGlobalNames true true
      (PyCode.mk [("LOAD_GLOBAL", "fact"), ("LOAD_FAST", "n")]
        [PyCode.mk [("LOAD_GLOBAL", "fact")] []]), n = "fact" := by
    simp [collectGlobalNames, collectGlobalNamesList, globalOps]
  exact ⟨h, forbid_global_names_own_name_allowed [] [] true true "fact" _ h⟩

end PureFn
